import Mathlib

/-!
Verification development for a small Python skill-management utility
(three modules: `marketplace.py`, `parser.py`, `state.py`).

The modules are shallowly embedded:
* strings are `String` / `List Char`, with the handful of Python string
  operations the code uses (`split`, `rstrip`, `startswith`, `strip`)
  modelled character by character;
* the filesystem is a list of existing paths (a path is a list of
  segments); `mkdir -p`, `shutil.move`, `shutil.rmtree` and existence
  checks are explicit functions on that list;
* the external `git` subprocess is an oracle (`ProcEnv`) providing exit
  codes, captured stderr and the resulting working tree;
* `yaml.safe_load` is an oracle `String → Except Unit PyValue`; Python
  run-time exceptions that the code can actually raise are made explicit
  in `Except PyExc`.
-/

namespace Chibi

/-! ## Python-level values and exceptions -/

/-- Result values of `yaml.safe_load` / `json.loads`: the subset of Python
values these libraries can produce that the code under study can observe. -/
inductive PyValue where
  | none
  | bool (b : Bool)
  | int (n : Int)
  | str (s : String)
  | list (xs : List PyValue)
  | dict (xs : List (String × PyValue))

/-- Uncaught Python exceptions that `parse_skill` can raise. -/
inductive PyExc where
  | attributeError
  | typeError
deriving DecidableEq

/-- Python truthiness (`if not x`) for the values above. -/
def pyTruthy : PyValue → Bool
  | .none => false
  | .bool b => b
  | .int n => n != 0
  | .str s => s.length != 0
  | .list xs => !xs.isEmpty
  | .dict xs => !xs.isEmpty

/-- Python `len(x)`: defined for strings, lists and dicts, a `TypeError`
(modelled as `Option.none`) otherwise. -/
def pyLen : PyValue → Option Nat
  | .str s => some s.length
  | .list xs => some xs.length
  | .dict xs => some xs.length
  | _ => Option.none

/-- Python `dict.get(k)`: the stored value, or `None` when absent. -/
def dictGet (kvs : List (String × PyValue)) (k : String) : PyValue :=
  match kvs.find? (fun p => p.1 == k) with
  | some p => p.2
  | Option.none => PyValue.none

/-! ## Python string helpers used by the code -/

/-- The characters of Python's `\s` (ASCII range), also used by `str.strip`. -/
def pySpace (c : Char) : Bool :=
  (c == ' ') || (c == '\t') || (c == '\n') || (c == '\r') ||
  (c == Char.ofNat 11) || (c == Char.ofNat 12)

/-- Python `str.strip()` on the character list. -/
def pyStripL (l : List Char) : List Char :=
  ((l.dropWhile pySpace).reverse.dropWhile pySpace).reverse

/-- Python `str.strip()`. -/
def pyStrip (s : String) : String :=
  String.mk (pyStripL s.data)

/-- Whether `'/' in s` holds. -/
def containsSlashL (l : List Char) : Bool :=
  l.any (fun c => c == '/')

/-- The first component of Python `s.split("/", 1)` (when a slash occurs). -/
def beforeFirstSlashL : List Char → List Char
  | [] => []
  | c :: cs => if c == '/' then [] else c :: beforeFirstSlashL cs

/-- The second component of Python `s.split("/", 1)` (when a slash occurs). -/
def afterFirstSlashL : List Char → List Char
  | [] => []
  | c :: cs => if c == '/' then cs else afterFirstSlashL cs

/-- Python `s.split("/")[-1]`: the suffix after the last slash. -/
def lastSegL (l : List Char) : List Char :=
  (l.reverse.takeWhile (fun c => c != '/')).reverse

/-- Python `s.rstrip("/")`. -/
def rstripSlashL (l : List Char) : List Char :=
  (l.reverse.dropWhile (fun c => c == '/')).reverse

/-- Whether the string ends in a slash. -/
def endsSlashL (l : List Char) : Bool :=
  l.reverse.head? == some '/'

/-- Python `s.startswith(pre)`. -/
def strStartsWith (s pre : String) : Bool := pre.data.isPrefixOf s.data

def strContainsSlash (s : String) : Bool := containsSlashL s.data
def strBeforeFirstSlash (s : String) : String := String.mk (beforeFirstSlashL s.data)
def strAfterFirstSlash (s : String) : String := String.mk (afterFirstSlashL s.data)
def strLastSeg (s : String) : String := String.mk (lastSegL s.data)
def strRstripSlash (s : String) : String := String.mk (rstripSlashL s.data)
def strEndsSlash (s : String) : Bool := endsSlashL s.data

/-- Whether `sub` occurs as a contiguous substring of `s`. -/
def strContainsSubstr (s sub : String) : Bool :=
  decide (sub.data <:+: s.data)

/-! ## The `name` regular expression

`parser.py` validates names with `re.match(r'^[a-z0-9]+(-[a-z0-9]+)*$', name)`.
Python's `$` also matches just before a final newline, so the model accepts
a match of the core pattern against the whole string or against the string
minus one trailing newline. -/

def isLowerDigit (c : Char) : Bool :=
  ('a' ≤ c && c ≤ 'z') || ('0' ≤ c && c ≤ '9')

/-- Tail of the name pattern after one `[a-z0-9]` has been read; the flag
records whether the previous character was a hyphen (which must be followed
by another `[a-z0-9]`). -/
def nameTail : Bool → List Char → Bool
  | lastDash, [] => !lastDash
  | lastDash, c :: cs =>
    if c == '-' then
      if lastDash then false else nameTail true cs
    else
      isLowerDigit c && nameTail false cs

/-- Full-string match of `[a-z0-9]+(-[a-z0-9]+)*`. -/
def nameCore : List Char → Bool
  | [] => false
  | c :: cs => isLowerDigit c && nameTail false cs

/-- Model of `re.match(r'^[a-z0-9]+(-[a-z0-9]+)*$', s) is not None`. -/
def reMatchName (s : String) : Bool :=
  nameCore s.data ||
    (match s.data.reverse with
     | '\n' :: t => nameCore t.reverse
     | _ => false)

/-! ## The frontmatter regular expression

`parser.py` extracts frontmatter with
`re.match(r'^---\s*\n(.*?)\n---\s*\n', content, re.DOTALL)`.
A match decomposes the content as
`"---" ++ w1 ++ "\n" ++ g ++ "\n" ++ "---" ++ w2 ++ "\n" ++ tail`
with `w1`, `w2` whitespace and `g` the captured group.  Backtracking picks
the longest feasible `w1`, then the shortest `g`, then the longest `w2`.
The model below searches candidate indices in exactly that order. -/

/-- Candidate lengths `k` such that, starting at index `p` of `l`, the next
`k` characters are whitespace and the character after them is a newline.
Listed in decreasing order, modelling greedy matching of `\s*` then `\n`. -/
def wsNlKs (l : List Char) (p : Nat) : List Nat :=
  ((List.range (l.length + 1)).filter
    (fun k => ((l.drop p).take k).all pySpace && ((l.drop (p + k)).head? == some '\n'))).reverse

/-- If index `m` of `l` starts the closing delimiter `\n---\s*\n`, the index
just past that delimiter (with the longest whitespace run), else `none`. -/
def closeEnd (l : List Char) (m : Nat) : Option Nat :=
  match l.drop m with
  | '\n' :: '-' :: '-' :: '-' :: _ =>
    (wsNlKs l (m + 4)).head?.map (fun k => m + 4 + k + 1)
  | _ => Option.none

/-- The first closing delimiter at an index `≥ start`, as a pair of its
start index and the index just past it. -/
def closeFrom (l : List Char) (start : Nat) : Option (Nat × Nat) :=
  ((List.range (l.length + 1)).filterMap
    (fun m => if start ≤ m then (closeEnd l m).map (fun e => (m, e)) else Option.none)).head?

/-- Model of the frontmatter match: `some (group1, matchEnd)` when the
pattern matches at the start of `content`, `none` otherwise. -/
def fmMatch (content : List Char) : Option (List Char × Nat) :=
  match content with
  | '-' :: '-' :: '-' :: rest =>
    match (wsNlKs rest 0).find? (fun j => (closeFrom rest (j + 1)).isSome) with
    | some j =>
      match closeFrom rest (j + 1) with
      | some (m, e) => some ((rest.drop (j + 1)).take (m - (j + 1)), e + 3)
      | Option.none => Option.none
    | Option.none => Option.none
  | _ => Option.none

/-! ## `parser.py` -/

/-- The `Skill` dataclass.  The dataclass annotates every field, but Python
does not enforce the annotations, so only `name` (checked by `re.match`)
and `body` (built by slicing) are known to be strings; the remaining fields
pass through whatever `yaml.safe_load` produced. -/
structure Skill where
  name : String
  description : PyValue
  body : String
  allowed_tools : PyValue
  license : PyValue
  compatibility : PyValue
  metadata : PyValue

/-- Model of `parse_skill` on the file's text.  `yamlLoad` is the oracle
for `yaml.safe_load` (`Except.error` modelling `yaml.YAMLError`).  The
outer `Except PyExc` records the uncaught exceptions the function can
raise: `AttributeError` when the loaded frontmatter is not a mapping (the
code calls `.get` on it unconditionally) and `TypeError` when `re.match`
receives a non-string name or `len` a length-less description. -/
def parse_skill (yamlLoad : String → Except Unit PyValue) (content : String) :
    Except PyExc (Option Skill) :=
  match fmMatch content.data with
  | Option.none => .ok Option.none
  | some (fmChars, endIdx) =>
    match yamlLoad (String.mk fmChars) with
    | .error _ => .ok Option.none
    | .ok fm =>
      match fm with
      | PyValue.dict kvs =>
        if !pyTruthy (dictGet kvs "name") || !pyTruthy (dictGet kvs "description") then
          .ok Option.none
        else
          match dictGet kvs "name" with
          | PyValue.str s =>
            if !reMatchName s then .ok Option.none
            else if s.length > 64 then .ok Option.none
            else
              match pyLen (dictGet kvs "description") with
              | Option.none => .error PyExc.typeError
              | some dl =>
                if dl > 1024 then .ok Option.none
                else .ok (some
                  { name := s
                    description := dictGet kvs "description"
                    body := pyStrip (String.mk (content.data.drop endIdx))
                    allowed_tools := dictGet kvs "allowed-tools"
                    license := dictGet kvs "license"
                    compatibility := dictGet kvs "compatibility"
                    metadata := dictGet kvs "metadata" })
          | _ => .error PyExc.typeError
      | _ => .error PyExc.attributeError

/-! ## Filesystem model

A path is its list of segments; the filesystem is the list of existing
nodes (files and directories).  A real filesystem is prefix-closed: every
ancestor of an existing node exists.  Existence (`Path.exists()`) is
membership. -/

abbrev FsPath := List String
abbrev FS := List FsPath

/-- Whether the node exists (`pathlib.Path.exists()`). -/
def pathExists (p : FsPath) (fs : FS) : Bool :=
  fs.any (fun q => q == p)

/-- A real filesystem contains every prefix of every node it contains. -/
def PrefixClosed (fs : FS) : Prop :=
  ∀ q ∈ fs, ∀ p ∈ q.inits, p ∈ fs

/-- Model of `Path.mkdir(parents=True, exist_ok=True)`: add the directory
and all its missing ancestors. -/
def mkdirP (p : FsPath) (fs : FS) : FS :=
  (p.inits.filter (fun q => !pathExists q fs)) ++ fs

/-- Model of `shutil.rmtree`: remove the node and everything below it. -/
def rmtree (p : FsPath) (fs : FS) : FS :=
  fs.filter (fun q => !(p.isPrefixOf q))

/-- Model of `shutil.move` onto a fresh destination: relocate the source
node and everything below it. -/
def movePath (src dst : FsPath) (fs : FS) : FS :=
  fs.map (fun q => if src.isPrefixOf q then dst ++ q.drop src.length else q)

/-! ## `marketplace.py` -/

/-- How `install_skill` resolves a skill reference: `none` for the invalid
branch, otherwise `(repo_url, skill_name)`.  A reference starting with
`http` is used verbatim with the trailing segment of its slash-stripped
form as name; otherwise a reference containing `/` is split once, the part
before the first slash becoming the owner and everything after it the
skill name. -/
def resolveRef (ref : String) : Option (String × String) :=
  if strStartsWith ref "http" then
    some (ref, strLastSeg (strRstripSlash ref))
  else if strContainsSlash ref then
    some ("https://github.com/" ++ strBeforeFirstSlash ref ++ "/skills",
      strAfterFirstSlash ref)
  else
    Option.none

/-- The oracle for the two `git` subprocesses: exit codes, captured error
output, and the set of paths (relative to the temporary clone directory)
that exist in the working tree once both commands have run.  The code
captures but never reads the sparse-checkout result. -/
structure ProcEnv where
  cloneExit : Int
  cloneStderr : String
  sparseExit : Int
  sparseStderr : String
  postCheckoutPaths : List FsPath

/-- A record of which subprocesses a call spawned. -/
inductive GitCall where
  | clone (repoUrl : String) (dest : FsPath)
  | sparse (dir : FsPath) (pattern : String)

structure InstallResult where
  msg : String
  fs : FS
  calls : List GitCall

def invalidMsg (ref : String) : String :=
  "Error: Invalid skill reference '" ++ ref ++ "'. Use 'owner/skill-name' format."
def alreadyMsg (n : String) : String :=
  "Skill '" ++ n ++ "' is already installed. Remove it first to reinstall."
def cloneErrMsg (stderr : String) : String :=
  "Error cloning repository: " ++ stderr
def installedMsg (n : String) : String :=
  "Successfully installed skill '" ++ n ++ "'."
def notFoundMsg (n : String) : String :=
  "Error: Skill '" ++ n ++ "' not found in repository."
def notInstalledMsg (n : String) : String :=
  "Skill '" ++ n ++ "' is not installed."
def removedMsg (n : String) : String :=
  "Successfully removed skill '" ++ n ++ "'."

/-- The effect of the clone plus sparse-checkout on the filesystem: the
temporary directory exists and holds exactly the oracle's working tree. -/
def setSubtree (parent : FsPath) (rel : List FsPath) (fs : FS) : FS :=
  parent :: rel.map (fun r => parent ++ r) ++ fs.filter (fun q => !(parent.isPrefixOf q))

/-- Model of `install_skill skill_ref skills_dir` running against
filesystem `fs` with subprocess behavior `env`. -/
def install_skill (skill_ref : String) (skills_dir : FsPath) (env : ProcEnv) (fs : FS) :
    InstallResult :=
  let fs0 := mkdirP skills_dir fs
  match resolveRef skill_ref with
  | Option.none => ⟨invalidMsg skill_ref, fs0, []⟩
  | some (repo_url, skill_name) =>
    let target_dir := skills_dir ++ [skill_name]
    if pathExists target_dir fs0 then
      ⟨alreadyMsg skill_name, fs0, []⟩
    else
      let temp_dir := skills_dir ++ [".tmp_" ++ skill_name]
      if env.cloneExit != 0 then
        ⟨cloneErrMsg env.cloneStderr, fs0, [GitCall.clone repo_url temp_dir]⟩
      else
        let fs1 := setSubtree temp_dir env.postCheckoutPaths fs0
        let calls := [GitCall.clone repo_url temp_dir,
                      GitCall.sparse temp_dir ("skills/" ++ skill_name)]
        let skill_source := temp_dir ++ ["skills", skill_name]
        if pathExists skill_source fs1 then
          ⟨installedMsg skill_name, rmtree temp_dir (movePath skill_source target_dir fs1), calls⟩
        else
          ⟨notFoundMsg skill_name, rmtree temp_dir fs1, calls⟩

/-- How `remove_skill` resolves the skill name: the part after the last
slash when the reference contains one, the whole reference otherwise. -/
def removeResolveName (ref : String) : String :=
  if strContainsSlash ref then strLastSeg ref else ref

/-- Model of `remove_skill`. -/
def remove_skill (skill_ref : String) (skills_dir : FsPath) (fs : FS) : String × FS :=
  let skill_name := removeResolveName skill_ref
  let target_dir := skills_dir ++ [skill_name]
  if !pathExists target_dir fs then
    (notInstalledMsg skill_name, fs)
  else
    (removedMsg skill_name, rmtree target_dir fs)

/-! ## `state.py`

The state file holds JSON text.  The `json` library boundary is modelled
by storing the parsed document: a file is either a valid JSON document, a
text that fails to parse, or one that raises `IOError` on read (both of
the latter make `get_active_skill` return `None`). -/

inductive StoredFile where
  | jsonDoc (v : PyValue)
  | badText
  | unreadable

/-- Model of `get_active_skill` as a function of the state file. -/
def get_active_skill (st : Option StoredFile) : Option PyValue :=
  match st with
  | Option.none => Option.none
  | some (StoredFile.jsonDoc v) => some v
  | some StoredFile.badText => Option.none
  | some StoredFile.unreadable => Option.none

/-- Model of `set_active_skill`: overwrite the file with a JSON object of
exactly the two fields `name` and `allowed_tools` (the latter `null` when
`None` is passed). -/
def set_active_skill (name : String) (allowed_tools : Option String)
    (_st : Option StoredFile) : Option StoredFile :=
  some (StoredFile.jsonDoc (PyValue.dict
    [("name", PyValue.str name),
     ("allowed_tools", match allowed_tools with
       | some s => PyValue.str s
       | Option.none => PyValue.none)]))

/-- Model of `clear_active_skill`: delete the file if present. -/
def clear_active_skill (st : Option StoredFile) : Option StoredFile :=
  match st with
  | some _ => Option.none
  | Option.none => Option.none

/-! ## `list_skills` -/

/-- One entry of `skills_dir.iterdir()`: its choices are its name, whether
it is a directory, and the content of its `SKILL.md` when that file
exists. -/
structure DirEntry where
  name : String
  isDir : Bool
  skillMd : Option String

/-- The contribution of one directory entry: the body of the `for` loop in
`list_skills` (skip non-directories, hidden names, missing descriptors;
otherwise parse, which may raise). -/
def entryParse (yamlLoad : String → Except Unit PyValue) (e : DirEntry) :
    Except PyExc (Option Skill) :=
  if e.isDir && !(strStartsWith e.name ".") then
    match e.skillMd with
    | some content => parse_skill yamlLoad content
    | Option.none => .ok Option.none
  else .ok Option.none

/-- The loop of `list_skills`, accumulating parsed skills in directory
order and propagating any exception. -/
def collectSkills (yamlLoad : String → Except Unit PyValue) :
    List DirEntry → Except PyExc (List Skill)
  | [] => .ok []
  | e :: rest =>
    match entryParse yamlLoad e with
    | .error exc => .error exc
    | .ok Option.none => collectSkills yamlLoad rest
    | .ok (some sk) => (collectSkills yamlLoad rest).map (fun l => sk :: l)

/-- Python's `<` on strings: lexicographic comparison by code point, a
proper prefix being smaller. -/
def strLtL : List Char → List Char → Bool
  | [], [] => false
  | [], _ :: _ => true
  | _ :: _, [] => false
  | a :: as, b :: bs =>
    if a.toNat < b.toNat then true
    else if b.toNat < a.toNat then false
    else strLtL as bs

/-- Python's `<=` on strings (`a <= b` iff not `b < a`). -/
def strLeb (a b : String) : Bool := !(strLtL b.data a.data)

/-- Ordering used by `sorted(skills, key=lambda s: s.name)`. -/
def skillLe (a b : Skill) : Prop := strLeb a.name b.name = true

instance : DecidableRel skillLe :=
  fun a b => instDecidableEqBool (strLeb a.name b.name) true

/-- Model of `list_skills`: the directory is `none` when absent, otherwise
the list of its entries in iteration order. -/
def list_skills (yamlLoad : String → Except Unit PyValue)
    (dir : Option (List DirEntry)) : Except PyExc (List Skill) :=
  match dir with
  | Option.none => .ok []
  | some entries => (collectSkills yamlLoad entries).map (List.insertionSort skillLe)

/-! ## Concrete instances of the oracles

A finite table holding the `yaml.safe_load` results for the frontmatter
texts used in concrete examples; every row is the documented behavior of
`yaml.safe_load` on that text (a plain scalar loads as a string, a
`key: value` block as a mapping). -/

def name64 : String := String.mk (List.replicate 64 'a')
def name65 : String := String.mk (List.replicate 65 'a')

def yamlFix : String → Except Unit PyValue := fun s =>
  if s = "hello" then .ok (PyValue.str "hello")
  else if s = "name: my-skill\ndescription: x" then
    .ok (PyValue.dict [("name", PyValue.str "my-skill"), ("description", PyValue.str "x")])
  else if s = "name: " ++ name64 ++ "\ndescription: x" then
    .ok (PyValue.dict [("name", PyValue.str name64), ("description", PyValue.str "x")])
  else if s = "name: " ++ name65 ++ "\ndescription: x" then
    .ok (PyValue.dict [("name", PyValue.str name65), ("description", PyValue.str "x")])
  else if s = "name: alpha\ndescription: a" then
    .ok (PyValue.dict [("name", PyValue.str "alpha"), ("description", PyValue.str "a")])
  else if s = "name: beta\ndescription: b" then
    .ok (PyValue.dict [("name", PyValue.str "beta"), ("description", PyValue.str "b")])
  else if s = "name: gamma" then
    .ok (PyValue.dict [("name", PyValue.str "gamma")])
  else .error ()

/-- A descriptor whose frontmatter is valid YAML but not a mapping. -/
def contentScalarFm : String := "---\nhello\n---\n"
/-- The spec's example descriptor: valid frontmatter, no body. -/
def contentNoBody : String := "---\nname: my-skill\ndescription: x\n---\n"
def content64 : String := "---\nname: " ++ name64 ++ "\ndescription: x\n---\nbody"
def content65 : String := "---\nname: " ++ name65 ++ "\ndescription: x\n---\nbody"
def contentAlpha : String := "---\nname: alpha\ndescription: a\n---\nAlpha body."
def contentBeta : String := "---\nname: beta\ndescription: b\n---\nBeta body."
def contentGamma : String := "---\nname: gamma\n---\nno description"

/-! ## Filesystem lemmas -/

theorem pathExists_iff_mem (p : FsPath) (fs : FS) : pathExists p fs = true ↔ p ∈ fs := by
  simp [pathExists, List.any_eq_true]

theorem self_mem_mkdirP (p : FsPath) (fs : FS) : p ∈ mkdirP p fs := by
  by_cases h : pathExists p fs = true
  · exact List.mem_append_right _ ((pathExists_iff_mem p fs).mp h)
  · refine List.mem_append_left _ (List.mem_filter.mpr ⟨?_, ?_⟩)
    · exact (List.mem_inits _ _).mpr (List.prefix_refl p)
    · simp only [Bool.not_eq_true] at h
      simp [h]

theorem mkdirP_eq_self (p : FsPath) (fs : FS) (h : ∀ q ∈ p.inits, q ∈ fs) :
    mkdirP p fs = fs := by
  unfold mkdirP
  have hf : p.inits.filter (fun q => !pathExists q fs) = [] := by
    rw [List.filter_eq_nil_iff]
    intro a ha
    simp [(pathExists_iff_mem a fs).mpr (h a ha)]
  rw [hf, List.nil_append]

theorem not_prefix_of_length_lt {p q : FsPath} (h : p.length < q.length) :
    q.isPrefixOf p = false := by
  by_contra hc
  simp only [Bool.not_eq_false] at hc
  have := List.IsPrefix.length_le (List.isPrefixOf_iff_prefix.mp hc)
  omega

theorem isPrefixOf_self (p : FsPath) : p.isPrefixOf p = true :=
  List.isPrefixOf_iff_prefix.mpr (List.prefix_refl p)

theorem pathExists_rmtree_self (p : FsPath) (fs : FS) :
    pathExists p (rmtree p fs) = false := by
  rw [← Bool.not_eq_true, pathExists_iff_mem, rmtree]
  intro hmem
  have := (List.mem_filter.mp hmem).2
  simp [isPrefixOf_self] at this

theorem not_under_rmtree_self (p : FsPath) (fs : FS) (q : FsPath)
    (hq : q ∈ rmtree p fs) : ¬ p <+: q := by
  have := (List.mem_filter.mp hq).2
  simp only [Bool.not_eq_true'] at this
  intro hc
  rw [List.isPrefixOf_iff_prefix.mpr hc] at this
  cases this

theorem mem_setSubtree_of_not_under (parent : FsPath) (rel : List FsPath) (fs : FS)
    (q : FsPath) (hq : q ∈ fs) (h : parent.isPrefixOf q = false) :
    q ∈ setSubtree parent rel fs :=
  List.mem_cons_of_mem _ (List.mem_append_right _ (List.mem_filter.mpr ⟨hq, by simp [h]⟩))

theorem mem_movePath_of_not_under (src dst : FsPath) (fs : FS) (q : FsPath)
    (hq : q ∈ fs) (h : src.isPrefixOf q = false) : q ∈ movePath src dst fs := by
  have hmem := List.mem_map_of_mem
    (fun r => if src.isPrefixOf r then dst ++ r.drop src.length else r) hq
  simpa [movePath, h] using hmem

theorem mem_rmtree_of_not_under (p : FsPath) (fs : FS) (q : FsPath)
    (hq : q ∈ fs) (h : p.isPrefixOf q = false) : q ∈ rmtree p fs :=
  List.mem_filter.mpr ⟨hq, by simp [h]⟩

/-! ## Claim C5 -/

/-- C5: for every name string and every allowed-tools value (a string or
absent), `set_active` followed by `get_active` returns exactly the record
with the two fields `name` and `allowed_tools` and nothing else, regardless
of prior state-file contents; and `clear_active` followed by `get_active`
returns no value, regardless of prior state-file contents. -/
theorem set_get_clear_roundtrip (name : String) (allowed_tools : Option String)
    (st st' : Option StoredFile) :
    get_active_skill (set_active_skill name allowed_tools st) =
      some (PyValue.dict
        [("name", PyValue.str name),
         ("allowed_tools", match allowed_tools with
           | some s => PyValue.str s
           | Option.none => PyValue.none)]) ∧
    get_active_skill (clear_active_skill st') = Option.none := by
  refine ⟨rfl, ?_⟩
  cases st' <;> rfl

/-! ## Claim C8 -/

/-- C8: for every skill reference that contains no path separator and is
not a URL (the code's URL test being an `http` prefix), `install_skill`
returns the descriptive invalid-reference error string; it throws nothing:
the call returns normally, having spawned no subprocess and changed the
filesystem only by the initial `mkdir` of the target root. -/
theorem install_invalid_ref (ref : String) (skills_dir : FsPath) (env : ProcEnv)
    (fs : FS) (h1 : strStartsWith ref "http" = false)
    (h2 : strContainsSlash ref = false) :
    install_skill ref skills_dir env fs =
      ⟨invalidMsg ref, mkdirP skills_dir fs, []⟩ := by
  unfold install_skill resolveRef
  simp [h1, h2]

theorem install_invalid_ref_witness :
    install_skill "badref" ["skills"] ⟨0, "", 0, "", []⟩ [] =
      ⟨invalidMsg "badref", mkdirP ["skills"] [], []⟩ :=
  install_invalid_ref "badref" ["skills"] ⟨0, "", 0, "", []⟩ [] (by decide) (by decide)

/-! ## Claim C7 -/

/-- C7: when a directory for the resolved skill name already exists under
the target root (on a prefix-closed filesystem, as every real filesystem
is), `install_skill` returns the already-installed message, spawns no
subprocess (no clone is attempted) and returns the filesystem unchanged. -/
theorem install_already_installed (ref : String) (skills_dir : FsPath) (env : ProcEnv)
    (fs : FS) (repo name : String)
    (hres : resolveRef ref = some (repo, name))
    (hclosed : PrefixClosed fs)
    (hex : pathExists (skills_dir ++ [name]) fs = true) :
    install_skill ref skills_dir env fs = ⟨alreadyMsg name, fs, []⟩ := by
  have hmem : skills_dir ++ [name] ∈ fs := (pathExists_iff_mem _ _).mp hex
  have hmk : mkdirP skills_dir fs = fs := by
    apply mkdirP_eq_self
    intro q hq
    have hq2 : q <+: skills_dir ++ [name] :=
      ((List.mem_inits _ _).mp hq).trans ⟨[name], rfl⟩
    exact hclosed _ hmem q ((List.mem_inits _ _).mpr hq2)
  unfold install_skill
  rw [hres, hmk]
  simp [hex]

theorem install_already_installed_witness :
    install_skill "owner/foo" ["skills"] ⟨0, "", 0, "", []⟩
        [[], ["skills"], ["skills", "foo"]] =
      ⟨alreadyMsg "foo", [[], ["skills"], ["skills", "foo"]], []⟩ :=
  install_already_installed "owner/foo" ["skills"] ⟨0, "", 0, "", []⟩
    [[], ["skills"], ["skills", "foo"]] "https://github.com/owner/skills" "foo"
    rfl (by unfold PrefixClosed; decide) (by decide)

/-! ## Claim C10 -/

/-- C10: `install_skill` creates the target root directory first, before
validating the reference or checking for an existing install, so every
call — the invalid-reference error included — leaves the target root
existing. -/
theorem install_leaves_target_root (ref : String) (skills_dir : FsPath)
    (env : ProcEnv) (fs : FS) :
    pathExists skills_dir (install_skill ref skills_dir env fs).fs = true := by
  have h0 : skills_dir ∈ mkdirP skills_dir fs := self_mem_mkdirP _ _
  have htmp : ∀ t : String, ((skills_dir ++ [t]).isPrefixOf skills_dir) = false :=
    fun t => not_prefix_of_length_lt (by simp)
  have hsrc : ∀ (t : String) (r : List String),
      ((skills_dir ++ [t] ++ r).isPrefixOf skills_dir) = false :=
    fun t r => not_prefix_of_length_lt (by simp)
  unfold install_skill
  cases hres : resolveRef ref with
  | none => exact (pathExists_iff_mem _ _).mpr h0
  | some pr =>
    obtain ⟨repo, name⟩ := pr
    simp only
    by_cases hex : pathExists (skills_dir ++ [name]) (mkdirP skills_dir fs) = true
    · simp only [hex, if_true]
      exact (pathExists_iff_mem _ _).mpr h0
    · simp only [Bool.not_eq_true] at hex
      simp only [hex, Bool.false_eq_true, if_false]
      by_cases hcl : (env.cloneExit != 0) = true
      · simp only [hcl, if_true]
        exact (pathExists_iff_mem _ _).mpr h0
      · simp only [Bool.not_eq_true] at hcl
        simp only [hcl, Bool.false_eq_true, if_false]
        have h1 : skills_dir ∈ setSubtree (skills_dir ++ [".tmp_" ++ name])
            env.postCheckoutPaths (mkdirP skills_dir fs) :=
          mem_setSubtree_of_not_under _ _ _ _ h0 (htmp _)
        by_cases hsk : pathExists
            (skills_dir ++ [".tmp_" ++ name] ++ ["skills", name])
            (setSubtree (skills_dir ++ [".tmp_" ++ name]) env.postCheckoutPaths
              (mkdirP skills_dir fs)) = true
        · simp only [hsk, if_true]
          exact (pathExists_iff_mem _ _).mpr
            (mem_rmtree_of_not_under _ _ _
              (mem_movePath_of_not_under _ _ _ _ h1 (hsrc _ _)) (htmp _))
        · simp only [Bool.not_eq_true] at hsk
          simp only [hsk, Bool.false_eq_true, if_false]
          exact (pathExists_iff_mem _ _).mpr
            (mem_rmtree_of_not_under _ _ _ h1 (htmp _))

/-! ## Claim C3

The code checks the clone's exit status and surfaces its stderr, but it
never reads the sparse-checkout result: a checkout failure surfaces, at
best, as the missing-skill error, which does not carry the captured
process error output.  The claim as stated is therefore refuted below, and
the amended statement proves what the code does guarantee. -/

/-- An environment whose clone succeeds, whose sparse-checkout fails with
captured stderr `boom`, and whose working tree lacks the skill path. -/
def envSparseFail : ProcEnv := ⟨0, "", 1, "boom", []⟩

/-- C3 counterexample: with a failing sparse-checkout, the returned error
message does not contain the captured checkout stderr, contradicting the
claim that any checkout-time failure is surfaced with the process error
output. -/
theorem sparse_failure_not_surfaced :
    envSparseFail.sparseExit ≠ 0 ∧
    (install_skill "owner/foo" ["skills"] envSparseFail []).msg = notFoundMsg "foo" ∧
    strContainsSubstr (install_skill "owner/foo" ["skills"] envSparseFail []).msg
      envSparseFail.sparseStderr = false :=
  ⟨by decide, rfl, by decide⟩

theorem data_append (a b : String) : (a ++ b).data = a.data ++ b.data := rfl

/-- C3 (amended): a clone-time failure is surfaced as an error message
carrying the captured clone stderr; the sparse-checkout exit status and
stderr are ignored (the result does not depend on them); and when the
expected skill path is missing after checkout, the temporary clone
directory is removed before the error returns. -/
theorem install_failure_reporting (ref : String) (skills_dir : FsPath) (env : ProcEnv)
    (fs : FS) (repo name : String)
    (hres : resolveRef ref = some (repo, name))
    (hnex : pathExists (skills_dir ++ [name]) (mkdirP skills_dir fs) = false) :
    (env.cloneExit ≠ 0 →
      (install_skill ref skills_dir env fs).msg = cloneErrMsg env.cloneStderr ∧
      strContainsSubstr (install_skill ref skills_dir env fs).msg env.cloneStderr = true) ∧
    (env.cloneExit = 0 →
      pathExists (skills_dir ++ [".tmp_" ++ name, "skills", name])
        (setSubtree (skills_dir ++ [".tmp_" ++ name]) env.postCheckoutPaths
          (mkdirP skills_dir fs)) = false →
      (install_skill ref skills_dir env fs).msg = notFoundMsg name ∧
      pathExists (skills_dir ++ [".tmp_" ++ name])
        (install_skill ref skills_dir env fs).fs = false) ∧
    (∀ e s,
      install_skill ref skills_dir { env with sparseExit := e, sparseStderr := s } fs =
        install_skill ref skills_dir env fs) := by
  refine ⟨?_, ?_, ?_⟩
  · intro hcl
    have hcl' : (env.cloneExit != 0) = true := by simpa using hcl
    have hmsg : (install_skill ref skills_dir env fs).msg = cloneErrMsg env.cloneStderr := by
      unfold install_skill
      rw [hres]
      simp [hnex, hcl']
    refine ⟨hmsg, ?_⟩
    rw [hmsg]
    unfold strContainsSubstr cloneErrMsg
    rw [data_append]
    exact decide_eq_true (List.IsSuffix.isInfix (List.suffix_append _ _))
  · intro hcl hsk
    have hcl' : (env.cloneExit != 0) = false := by simp [hcl]
    have hinst : install_skill ref skills_dir env fs =
        ⟨notFoundMsg name,
         rmtree (skills_dir ++ [".tmp_" ++ name])
           (setSubtree (skills_dir ++ [".tmp_" ++ name]) env.postCheckoutPaths
             (mkdirP skills_dir fs)),
         [GitCall.clone repo (skills_dir ++ [".tmp_" ++ name]),
          GitCall.sparse (skills_dir ++ [".tmp_" ++ name]) ("skills/" ++ name)]⟩ := by
      unfold install_skill
      rw [hres]
      simp [hnex, hcl', hsk]
    rw [hinst]
    exact ⟨rfl, pathExists_rmtree_self _ _⟩
  · intro e s
    cases env
    rfl

theorem install_failure_reporting_witness :
    (install_skill "owner/foo" ["skills"] ⟨1, "boom", 0, "", []⟩ []).msg =
      cloneErrMsg "boom" ∧
    strContainsSubstr
      (install_skill "owner/foo" ["skills"] ⟨1, "boom", 0, "", []⟩ []).msg
      "boom" = true :=
  (install_failure_reporting "owner/foo" ["skills"] ⟨1, "boom", 0, "", []⟩ []
    "https://github.com/owner/skills" "foo" rfl (by decide)).1 (by decide)

/-! ## String lemmas for name resolution -/

theorem mk_data (s : String) : String.mk s.data = s := by
  cases s
  rfl

theorem takeWhile_append_sat {p : Char → Bool} (xs : List Char) (y : Char) (ys : List Char)
    (hall : ∀ c ∈ xs, p c = true) (hy : p y = false) :
    (xs ++ y :: ys).takeWhile p = xs := by
  induction xs with
  | nil => simp [List.takeWhile_cons, hy]
  | cons a as ih =>
    have ha := hall a (List.mem_cons_self a as)
    simp [List.takeWhile_cons, ha, ih (fun c hc => hall c (List.mem_cons_of_mem _ hc))]

theorem no_slash_chars {l : List Char} (h : containsSlashL l = false) :
    ∀ c ∈ l, (c != '/') = true := by
  intro c hc
  unfold containsSlashL at h
  rw [List.any_eq_false] at h
  simpa using h c hc

theorem lastSegL_of_no_slash {l : List Char} (h : containsSlashL l = false) :
    lastSegL l = l := by
  unfold lastSegL
  rw [List.takeWhile_eq_self_iff.mpr
    (fun c hc => no_slash_chars h c (List.mem_reverse.mp hc)), List.reverse_reverse]

theorem split_firstSlash {l : List Char} (h : containsSlashL l = true) :
    l = beforeFirstSlashL l ++ '/' :: afterFirstSlashL l ∧
    containsSlashL (beforeFirstSlashL l) = false := by
  induction l with
  | nil => simp [containsSlashL] at h
  | cons c cs ih =>
    by_cases hc : c = '/'
    · subst hc
      constructor
      · simp [beforeFirstSlashL, afterFirstSlashL]
      · simp [beforeFirstSlashL, containsSlashL]
    · have hc' : (c == '/') = false := by simp [hc]
      have hcs : containsSlashL cs = true := by
        simpa [containsSlashL, hc'] using h
      obtain ⟨ih1, ih2⟩ := ih hcs
      refine ⟨?_, ?_⟩
      · simp only [beforeFirstSlashL, afterFirstSlashL, hc', Bool.false_eq_true, if_false]
        exact congrArg (c :: ·) ih1
      · have hb : beforeFirstSlashL (c :: cs) = c :: beforeFirstSlashL cs := by
          simp [beforeFirstSlashL, hc']
        rw [hb]
        simpa [containsSlashL, hc'] using ih2

theorem lastSegL_append {b a : List Char} (ha : containsSlashL a = false) :
    lastSegL (b ++ '/' :: a) = a := by
  unfold lastSegL
  have hrev : (b ++ '/' :: a).reverse = a.reverse ++ '/' :: b.reverse := by
    simp
  rw [hrev, takeWhile_append_sat _ _ _
      (fun c hc => no_slash_chars ha c (List.mem_reverse.mp hc)) (by decide),
    List.reverse_reverse]

theorem rstripSlashL_of_no_trailing {l : List Char} (h : endsSlashL l = false) :
    rstripSlashL l = l := by
  unfold rstripSlashL
  unfold endsSlashL at h
  cases hr : l.reverse with
  | nil =>
    simp only [List.dropWhile_nil, List.reverse_nil]
    exact (List.reverse_eq_nil_iff.mp hr).symm
  | cons c t =>
    rw [hr] at h
    have hc : (c == '/') = false := by simpa using h
    rw [List.dropWhile_cons, hc]
    simp only [Bool.false_eq_true, if_false]
    rw [← hr, List.reverse_reverse]

/-! ## Claim C1

`install_skill` resolves an `owner/...` reference by splitting once at the
first slash, so the resolved name is everything after the first slash,
while `remove_skill` takes everything after the last slash; on a reference
with more than one slash (or a URL with a trailing slash) the two disagree
and install's name is not the trailing segment.  The claim as stated is
refuted below; the amended claim restricts to references where the part
after the first slash contains no further slash and URLs without a
trailing slash. -/

/-- C1 counterexample: on the reference `owner/a/b`, install resolves the
skill name `a/b` (which is not the trailing path segment) while remove
resolves `b`. -/
theorem resolution_mismatch_counterexample :
    resolveRef "owner/a/b" = some ("https://github.com/owner/skills", "a/b") ∧
    removeResolveName "owner/a/b" = "b" ∧
    strLastSeg "owner/a/b" = "b" ∧
    ("a/b" : String) ≠ "b" :=
  ⟨rfl, rfl, rfl, by decide⟩

/-- References on which the two resolutions agree: URLs without a trailing
slash, and `owner/name` references whose part after the first slash has no
further slash. -/
def GoodRef (ref : String) : Prop :=
  (strStartsWith ref "http" = true ∧ strEndsSlash ref = false) ∨
  (strStartsWith ref "http" = false ∧ strContainsSlash ref = true ∧
    strContainsSlash (strAfterFirstSlash ref) = false)

/-- C1 (amended): for every good reference, install and remove resolve the
same skill name, namely the trailing path segment; given that name, remove
fails gracefully (returns a message, the model throws nothing) when the
directory is absent and otherwise deletes the directory recursively. -/
theorem remove_install_name_agreement (ref : String) (h : GoodRef ref) :
    (∃ repo, resolveRef ref = some (repo, strLastSeg ref)) ∧
    removeResolveName ref = strLastSeg ref ∧
    (∀ (skills_dir : FsPath) (fs : FS),
      (pathExists (skills_dir ++ [strLastSeg ref]) fs = false →
        remove_skill ref skills_dir fs = (notInstalledMsg (strLastSeg ref), fs)) ∧
      (pathExists (skills_dir ++ [strLastSeg ref]) fs = true →
        (remove_skill ref skills_dir fs).1 = removedMsg (strLastSeg ref) ∧
        ∀ q ∈ (remove_skill ref skills_dir fs).2,
          ¬ (skills_dir ++ [strLastSeg ref]) <+: q)) := by
  have hname : removeResolveName ref = strLastSeg ref := by
    unfold removeResolveName
    by_cases hc : strContainsSlash ref = true
    · rw [if_pos hc]
    · have hc' : strContainsSlash ref = false := by
        simpa using hc
      rw [if_neg (by simp [hc']), strLastSeg, lastSegL_of_no_slash hc', mk_data]
  refine ⟨?_, hname, ?_⟩
  · rcases h with ⟨h1, h2⟩ | ⟨h1, h2, h3⟩
    · refine ⟨ref, ?_⟩
      unfold resolveRef
      rw [if_pos h1, strRstripSlash, rstripSlashL_of_no_trailing h2, mk_data]
    · refine ⟨"https://github.com/" ++ strBeforeFirstSlash ref ++ "/skills", ?_⟩
      unfold resolveRef
      rw [if_neg (by simp [h1]), if_pos h2]
      have hsplit := split_firstSlash (l := ref.data) h2
      have : strLastSeg ref = strAfterFirstSlash ref := by
        unfold strLastSeg strAfterFirstSlash
        have h3' : containsSlashL (afterFirstSlashL ref.data) = false := h3
        conv =>
          lhs
          rw [show ref.data = beforeFirstSlashL ref.data ++ '/' :: afterFirstSlashL ref.data
            from hsplit.1]
        rw [lastSegL_append h3']
      rw [this]
  · intro skills_dir fs
    constructor
    · intro hnex
      unfold remove_skill
      simp [hname, hnex]
    · intro hex
      have hrem : remove_skill ref skills_dir fs =
          (removedMsg (strLastSeg ref), rmtree (skills_dir ++ [strLastSeg ref]) fs) := by
        unfold remove_skill
        simp [hname, hex]
      rw [hrem]
      exact ⟨rfl, fun q hq => not_under_rmtree_self _ _ q hq⟩

theorem remove_install_name_agreement_witness :
    (∃ repo, resolveRef "owner/foo" = some (repo, strLastSeg "owner/foo")) ∧
    removeResolveName "owner/foo" = strLastSeg "owner/foo" :=
  ⟨(remove_install_name_agreement "owner/foo"
      (Or.inr ⟨by decide, by decide, by decide⟩)).1,
   (remove_install_name_agreement "owner/foo"
      (Or.inr ⟨by decide, by decide, by decide⟩)).2.1⟩

/-! ## Soundness of the frontmatter match -/

theorem drop_split (l : List Char) {i j : Nat} (h : i ≤ j) :
    l.drop i = (l.drop i).take (j - i) ++ l.drop j := by
  conv_lhs => rw [← List.take_append_drop (j - i) (l.drop i)]
  rw [List.drop_drop, Nat.add_sub_cancel' h]

theorem drop_cons_of_head? {l : List Char} {i : Nat} {c : Char}
    (h : (l.drop i).head? = some c) : l.drop i = c :: l.drop (i + 1) := by
  have hcons := List.eq_cons_of_mem_head? (Option.mem_def.mpr h)
  rw [List.tail_drop] at hcons
  exact hcons

theorem wsNlKs_mem {l : List Char} {p k : Nat} (h : k ∈ wsNlKs l p) :
    ((l.drop p).take k).all pySpace = true ∧ (l.drop (p + k)).head? = some '\n' := by
  unfold wsNlKs at h
  rw [List.mem_reverse, List.mem_filter] at h
  have h2 := h.2
  simp only [Bool.and_eq_true, beq_iff_eq] at h2
  exact h2

theorem closeEnd_sound {l : List Char} {m e : Nat} (h : closeEnd l m = some e) :
    ∃ k, l.drop m = '\n' :: '-' :: '-' :: '-' :: l.drop (m + 4) ∧
      ((l.drop (m + 4)).take k).all pySpace = true ∧
      (l.drop (m + 4 + k)).head? = some '\n' ∧
      e = m + 4 + k + 1 := by
  unfold closeEnd at h
  split at h
  next xs heq =>
    rw [Option.map_eq_some'] at h
    obtain ⟨k, hk, he⟩ := h
    obtain ⟨hall, hnl⟩ := wsNlKs_mem (List.mem_of_mem_head? (Option.mem_def.mpr hk))
    have t1 : l.drop (m + 1) = '-' :: '-' :: '-' :: xs := by
      rw [← List.tail_drop, heq, List.tail_cons]
    have t2 : l.drop (m + 2) = '-' :: '-' :: xs := by
      rw [← List.tail_drop, t1, List.tail_cons]
    have t3 : l.drop (m + 3) = '-' :: xs := by
      rw [← List.tail_drop, t2, List.tail_cons]
    have t4 : l.drop (m + 4) = xs := by
      rw [← List.tail_drop, t3, List.tail_cons]
    refine ⟨k, ?_, hall, hnl, he.symm⟩
    rw [heq, t4]
  next => cases h

theorem closeFrom_sound {l : List Char} {start m e : Nat}
    (h : closeFrom l start = some (m, e)) :
    start ≤ m ∧ closeEnd l m = some e := by
  unfold closeFrom at h
  have hmem := List.mem_of_mem_head? (Option.mem_def.mpr h)
  rw [List.mem_filterMap] at hmem
  obtain ⟨x, hx, hfx⟩ := hmem
  by_cases hs : start ≤ x
  · rw [if_pos hs] at hfx
    rw [Option.map_eq_some'] at hfx
    obtain ⟨e', he', heq⟩ := hfx
    injection heq with h1 h2
    subst h1
    subst h2
    exact ⟨hs, he'⟩
  · rw [if_neg hs] at hfx
    cases hfx

theorem fmMatch_sound {content g : List Char} {E : Nat}
    (h : fmMatch content = some (g, E)) :
    ∃ w1 w2 rest2, w1.all pySpace = true ∧ w2.all pySpace = true ∧
      content = '-' :: '-' :: '-' ::
        (w1 ++ '\n' :: (g ++ '\n' :: '-' :: '-' :: '-' :: (w2 ++ '\n' :: rest2))) ∧
      content.drop E = rest2 := by
  unfold fmMatch at h
  split at h
  next rest =>
    split at h
    next j hfind =>
      split at h
      next m e hclose =>
        rw [Option.some.injEq, Prod.mk.injEq] at h
        obtain ⟨hg, hE⟩ := h
        obtain ⟨hjall, hjnl⟩ := wsNlKs_mem (List.mem_of_find?_eq_some hfind)
        simp only [List.drop_zero] at hjall
        rw [Nat.zero_add] at hjnl
        obtain ⟨hjm, hce⟩ := closeFrom_sound hclose
        obtain ⟨k, hdm, hkall, hknl, hE2⟩ := closeEnd_sound hce
        have hk' : m + 4 + k - (m + 4) = k := by omega
        refine ⟨rest.take j, (rest.drop (m + 4)).take k, rest.drop (m + 4 + k + 1),
          hjall, hkall, ?_, ?_⟩
        · have step1 : rest = rest.take j ++ rest.drop j :=
            (List.take_append_drop j rest).symm
          have step2 : rest.drop j = '\n' :: rest.drop (j + 1) :=
            drop_cons_of_head? hjnl
          have step3 : rest.drop (j + 1) =
              (rest.drop (j + 1)).take (m - (j + 1)) ++ rest.drop m :=
            drop_split rest hjm
          have step5 : rest.drop (m + 4) =
              (rest.drop (m + 4)).take k ++ rest.drop (m + 4 + k) := by
            have := drop_split rest (Nat.le_add_right (m + 4) k)
            rwa [hk'] at this
          have step6 : rest.drop (m + 4 + k) = '\n' :: rest.drop (m + 4 + k + 1) :=
            drop_cons_of_head? hknl
          conv_lhs => rw [step1, step2, step3, hg, hdm, step5, step6]
        · rw [← hE, ← hE2]
          show (('-' :: '-' :: '-' :: rest).drop (e + 3)) = rest.drop e
          rfl
      next => cases h
    next => cases h
  next => cases h

/-! ## Inversion of a successful parse -/

theorem parse_skill_ok_inversion {y : String → Except Unit PyValue} {c : String}
    {sk : Skill} (h : parse_skill y c = .ok (some sk)) :
    ∃ g E kvs, fmMatch c.data = some (g, E) ∧
      y (String.mk g) = .ok (PyValue.dict kvs) ∧
      dictGet kvs "name" = PyValue.str sk.name ∧
      dictGet kvs "description" = sk.description ∧
      pyTruthy (dictGet kvs "name") = true ∧
      pyTruthy sk.description = true ∧
      reMatchName sk.name = true ∧
      sk.name.length ≤ 64 ∧
      (∃ dl, pyLen sk.description = some dl ∧ dl ≤ 1024) ∧
      sk.body = pyStrip (String.mk (c.data.drop E)) := by
  unfold parse_skill at h
  split at h
  · simp at h
  rename_i fmChars endIdx hfm
  split at h
  · simp at h
  rename_i fm hy
  split at h
  rotate_left 1
  · simp at h
  rename_i kvs
  split at h
  · simp at h
  rename_i hcond
  split at h
  rotate_left 1
  · simp at h
  rename_i s hname
  split at h
  · simp at h
  rename_i hre
  split at h
  · simp at h
  rename_i hlen
  split at h
  · simp at h
  rename_i dl hplen
  split at h
  · simp at h
  rename_i hdl
  rw [Except.ok.injEq, Option.some.injEq] at h
  subst h
  have h1 : pyTruthy (dictGet kvs "name") = true := by
    by_contra hf
    rw [Bool.not_eq_true] at hf
    exact hcond (by rw [hf]; rfl)
  have h2 : pyTruthy (dictGet kvs "description") = true := by
    by_contra hf
    rw [Bool.not_eq_true] at hf
    apply hcond
    rw [hf]
    simp
  refine ⟨fmChars, endIdx, kvs, hfm, hy, ?_, rfl, h1, ?_, ?_, ?_, ⟨dl, ?_, ?_⟩, ?_⟩
  · exact hname
  · exact h2
  · show reMatchName s = true
    simpa using hre
  · show s.length ≤ 64
    omega
  · exact hplen
  · omega
  · rfl

/-! ## Claim C2

`parse_skill` catches only `yaml.YAMLError`; when the frontmatter is valid
YAML that is not a mapping the code calls `.get` on it and raises
`AttributeError` (for example `yaml.safe_load "hello"` is the string
`"hello"`, which has no `.get`).  The theorem evaluates the model at that
failing input. -/

/-- C2: at the descriptor whose frontmatter block is the plain scalar
`hello`, `parse_skill` raises `AttributeError` instead of silently
returning no record. -/
theorem parse_skill_raises_on_scalar_frontmatter :
    parse_skill yamlFix contentScalarFm = .error PyExc.attributeError := rfl

/-! ## Claim C4 -/

/-- The validation conditions `parse_skill` imposes on the frontmatter
mapping: truthy `name` and `description`, `name` a string matching the
name pattern with length at most 64, and a `description` whose `len` is
defined and at most 1024. -/
def fieldsOK (kvs : List (String × PyValue)) : Prop :=
  pyTruthy (dictGet kvs "name") = true ∧
  pyTruthy (dictGet kvs "description") = true ∧
  (∃ s, dictGet kvs "name" = PyValue.str s ∧ reMatchName s = true ∧ s.length ≤ 64) ∧
  (∃ dl, pyLen (dictGet kvs "description") = some dl ∧ dl ≤ 1024)

/-- The record parsed from the spec's 64-character-name example. -/
def skill64 : Skill :=
  ⟨name64, PyValue.str "x", "body", PyValue.none, PyValue.none, PyValue.none, PyValue.none⟩

/-- The record parsed from the spec's no-body example descriptor. -/
def skillMySkill : Skill :=
  ⟨"my-skill", PyValue.str "x", "", PyValue.none, PyValue.none, PyValue.none, PyValue.none⟩

/-- C4: a record is returned only when the frontmatter mapping has truthy
`name` and `description` with the name matching the pattern and the length
bounds holding; any violation of these conditions yields no record; in
particular the 65-character name yields no record while the otherwise
identical 64-character name succeeds. -/
theorem parse_skill_validation :
    (∀ (y : String → Except Unit PyValue) (c : String) (sk : Skill),
      parse_skill y c = .ok (some sk) →
      ∃ kvs, (∃ g E, fmMatch c.data = some (g, E) ∧
          y (String.mk g) = .ok (PyValue.dict kvs)) ∧
        fieldsOK kvs ∧ dictGet kvs "name" = PyValue.str sk.name ∧
        dictGet kvs "description" = sk.description) ∧
    (∀ (y : String → Except Unit PyValue) (c : String) (g : List Char) (E : Nat)
        (kvs : List (String × PyValue)),
      fmMatch c.data = some (g, E) → y (String.mk g) = .ok (PyValue.dict kvs) →
      ¬ fieldsOK kvs → ∀ sk, parse_skill y c ≠ .ok (some sk)) ∧
    parse_skill yamlFix content65 = .ok Option.none ∧
    parse_skill yamlFix content64 = .ok (some skill64) ∧
    name64.length = 64 ∧ name65.length = 65 := by
  have main : ∀ (y : String → Except Unit PyValue) (c : String) (sk : Skill),
      parse_skill y c = .ok (some sk) →
      ∃ kvs, (∃ g E, fmMatch c.data = some (g, E) ∧
          y (String.mk g) = .ok (PyValue.dict kvs)) ∧
        fieldsOK kvs ∧ dictGet kvs "name" = PyValue.str sk.name ∧
        dictGet kvs "description" = sk.description := by
    intro y c sk h
    obtain ⟨g, E, kvs, hfm, hy, hname, hdesc, ht1, ht2, hre, hlen, hplen, hbody⟩ :=
      parse_skill_ok_inversion h
    refine ⟨kvs, ⟨g, E, hfm, hy⟩, ⟨ht1, ?_, ⟨sk.name, hname, hre, hlen⟩, ?_⟩, hname, hdesc⟩
    · rw [hdesc]
      exact ht2
    · rw [hdesc]
      exact hplen
  refine ⟨main, ?_, rfl, rfl, rfl, rfl⟩
  intro y c g E kvs hfm hy hnot sk hok
  obtain ⟨kvs', ⟨g', E', hfm', hy'⟩, hOK, _, _⟩ := main y c sk hok
  rw [hfm] at hfm'
  rw [Option.some.injEq, Prod.mk.injEq] at hfm'
  obtain ⟨hg, hE⟩ := hfm'
  subst hg
  rw [hy] at hy'
  rw [Except.ok.injEq, PyValue.dict.injEq] at hy'
  subst hy'
  exact hnot hOK

theorem parse_skill_validation_witness :
    ∃ kvs, (∃ g E, fmMatch contentNoBody.data = some (g, E) ∧
        yamlFix (String.mk g) = .ok (PyValue.dict kvs)) ∧
      fieldsOK kvs ∧ dictGet kvs "name" = PyValue.str skillMySkill.name ∧
      dictGet kvs "description" = skillMySkill.description :=
  parse_skill_validation.1 yamlFix contentNoBody skillMySkill rfl

/-! ## Claim C9 -/

theorem dropWhile_append_all {p : Char → Bool} {w l : List Char}
    (hw : ∀ c ∈ w, p c = true) : (w ++ l).dropWhile p = l.dropWhile p := by
  induction w with
  | nil => rfl
  | cons a as ih =>
    simp [List.dropWhile_cons, hw a (List.mem_cons_self _ _),
      ih (fun c hc => hw c (List.mem_cons_of_mem _ hc))]

theorem pyStrip_ws_left {w l : List Char} (hw : w.all pySpace = true) :
    pyStrip (String.mk (w ++ l)) = pyStrip (String.mk l) := by
  unfold pyStrip pyStripL
  rw [show (String.mk (w ++ l)).data = w ++ l from rfl,
    show (String.mk l).data = l from rfl,
    dropWhile_append_all (fun c hc => List.all_eq_true.mp hw c hc)]

/-- C9: whenever a record is returned, the content decomposes around the
frontmatter delimiters and the record's body is all content after the
closing delimiter, trimmed of surrounding whitespace (equivalently, the
content after the full delimiter line); in particular the spec's example
descriptor with valid frontmatter and no body yields matching name and
description and an empty body. -/
theorem parse_skill_body_spec :
    (∀ (y : String → Except Unit PyValue) (c : String) (sk : Skill),
      parse_skill y c = .ok (some sk) →
      ∃ w1 g w2 rest2 : List Char, w1.all pySpace = true ∧ w2.all pySpace = true ∧
        c.data = '-' :: '-' :: '-' ::
          (w1 ++ '\n' :: (g ++ '\n' :: '-' :: '-' :: '-' :: (w2 ++ '\n' :: rest2))) ∧
        sk.body = pyStrip (String.mk (w2 ++ '\n' :: rest2)) ∧
        sk.body = pyStrip (String.mk rest2)) ∧
    parse_skill yamlFix contentNoBody = .ok (some skillMySkill) ∧
    skillMySkill.name = "my-skill" ∧ skillMySkill.description = PyValue.str "x" ∧
    skillMySkill.body = "" := by
  refine ⟨?_, rfl, rfl, rfl, rfl⟩
  intro y c sk h
  obtain ⟨g, E, kvs, hfm, _, _, _, _, _, _, _, _, hbody⟩ := parse_skill_ok_inversion h
  obtain ⟨w1, w2, rest2, hw1, hw2, hdecomp, hdrop⟩ := fmMatch_sound hfm
  have hbody2 : sk.body = pyStrip (String.mk rest2) := by
    rw [hbody, hdrop]
  refine ⟨w1, g, w2, rest2, hw1, hw2, hdecomp, ?_, hbody2⟩
  rw [show w2 ++ '\n' :: rest2 = (w2 ++ ['\n']) ++ rest2 by simp]
  rw [pyStrip_ws_left (by rw [List.all_append, hw2]; rfl)]
  exact hbody2

theorem parse_skill_body_spec_witness :
    ∃ w1 g w2 rest2 : List Char, w1.all pySpace = true ∧ w2.all pySpace = true ∧
      content64.data = '-' :: '-' :: '-' ::
        (w1 ++ '\n' :: (g ++ '\n' :: '-' :: '-' :: '-' :: (w2 ++ '\n' :: rest2))) ∧
      skill64.body = pyStrip (String.mk (w2 ++ '\n' :: rest2)) ∧
      skill64.body = pyStrip (String.mk rest2) :=
  parse_skill_body_spec.1 yamlFix content64 skill64 rfl

/-! ## Order lemmas for the sort in `list_skills` -/

theorem strLtL_irrefl : ∀ x : List Char, strLtL x x = false := by
  intro x
  induction x with
  | nil => rfl
  | cons a as ih => simp [strLtL, ih]

theorem strLtL_trans : ∀ {x y z : List Char},
    strLtL x y = true → strLtL y z = true → strLtL x z = true := by
  intro x
  induction x with
  | nil =>
    intro y z hxy hyz
    cases y with
    | nil => simp [strLtL] at hxy
    | cons b bs =>
      cases z with
      | nil => simp [strLtL] at hyz
      | cons c cs => simp [strLtL]
  | cons a as ih =>
    intro y z hxy hyz
    cases y with
    | nil => simp [strLtL] at hxy
    | cons b bs =>
      cases z with
      | nil => simp [strLtL] at hyz
      | cons c cs =>
        simp only [strLtL] at hxy hyz ⊢
        by_cases h1 : a.toNat < b.toNat
        · by_cases h2 : b.toNat < c.toNat
          · simp [show a.toNat < c.toNat by omega]
          · rw [if_neg h2] at hyz
            by_cases h3 : c.toNat < b.toNat
            · rw [if_pos h3] at hyz
              cases hyz
            · rw [if_neg h3] at hyz
              simp [show a.toNat < c.toNat by omega]
        · rw [if_neg h1] at hxy
          by_cases h1' : b.toNat < a.toNat
          · rw [if_pos h1'] at hxy
            cases hxy
          · rw [if_neg h1'] at hxy
            by_cases h2 : b.toNat < c.toNat
            · simp [show a.toNat < c.toNat by omega]
            · rw [if_neg h2] at hyz
              by_cases h3 : c.toNat < b.toNat
              · rw [if_pos h3] at hyz
                cases hyz
              · rw [if_neg h3] at hyz
                rw [if_neg (show ¬ a.toNat < c.toNat by omega),
                  if_neg (show ¬ c.toNat < a.toNat by omega)]
                exact ih hxy hyz

theorem strLtL_conn : ∀ {x y : List Char},
    strLtL x y = false → strLtL y x = false → x = y := by
  intro x
  induction x with
  | nil =>
    intro y h1 h2
    cases y with
    | nil => rfl
    | cons b bs => simp [strLtL] at h1
  | cons a as ih =>
    intro y h1 h2
    cases y with
    | nil => simp [strLtL] at h2
    | cons b bs =>
      simp only [strLtL] at h1 h2
      by_cases hab : a.toNat < b.toNat
      · rw [if_pos hab] at h1
        cases h1
      · rw [if_neg hab] at h1
        by_cases hba : b.toNat < a.toNat
        · rw [if_pos hba] at h2
          cases h2
        · rw [if_neg hba] at h1
          rw [if_neg hba, if_neg hab] at h2
          have hchar : a = b := by
            have hn : a.toNat = b.toNat := by omega
            have hval : a.val = b.val := UInt32.toNat.inj hn
            exact Char.ext hval
          subst hchar
          rw [ih h1 h2]

instance : IsTotal Skill skillLe := by
  constructor
  intro a b
  unfold skillLe strLeb
  by_cases hba : strLtL b.name.data a.name.data = true
  · right
    by_cases hab : strLtL a.name.data b.name.data = true
    · have hbb := strLtL_trans hba hab
      rw [strLtL_irrefl] at hbb
      cases hbb
    · rw [Bool.not_eq_true] at hab
      simp [hab]
  · left
    rw [Bool.not_eq_true] at hba
    simp [hba]

instance : IsTrans Skill skillLe := by
  constructor
  intro a b c h1 h2
  unfold skillLe strLeb at h1 h2 ⊢
  rw [Bool.not_eq_true'] at h1 h2 ⊢
  by_cases hca : strLtL c.name.data a.name.data = true
  · by_cases hab : strLtL a.name.data b.name.data = true
    · have hcb := strLtL_trans hca hab
      rw [h2] at hcb
      cases hcb
    · rw [Bool.not_eq_true] at hab
      have heq := strLtL_conn hab h1
      rw [← heq] at h2
      rw [hca] at h2
      cases h2
  · rwa [Bool.not_eq_true] at hca

/-! ## Claim C6

A descriptor that makes `parse_skill` raise makes `list_skills` raise as
well: the exception propagates out of the loop, so on such a directory the
function does not return the successfully parsed records with failures
discarded.  The claim as stated is refuted below; the amended claim adds
the proviso that no descriptor raises. -/

/-- The records of the entries whose descriptor parses successfully, in
directory order. -/
def successRecords (y : String → Except Unit PyValue) : List DirEntry → List Skill
  | [] => []
  | e :: rest =>
    match entryParse y e with
    | .ok (some sk) => sk :: successRecords y rest
    | _ => successRecords y rest

theorem collectSkills_ok (y : String → Except Unit PyValue) (entries : List DirEntry)
    (h : ∀ e ∈ entries, ∃ r, entryParse y e = .ok r) :
    collectSkills y entries = .ok (successRecords y entries) := by
  induction entries with
  | nil => rfl
  | cons e rest ih =>
    obtain ⟨r, hr⟩ := h e (List.mem_cons_self _ _)
    have ih' := ih (fun x hx => h x (List.mem_cons_of_mem _ hx))
    unfold collectSkills successRecords
    rw [hr]
    cases r with
    | none => exact ih'
    | some sk =>
      show (collectSkills y rest).map (fun l => sk :: l) = .ok (sk :: successRecords y rest)
      rw [ih']
      rfl

/-- The invalid subdirectory used in the counterexample. -/
def badEntry : DirEntry := ⟨"bad", true, some contentScalarFm⟩

/-- C6 counterexample: on a directory with one subdirectory whose
descriptor's frontmatter is a YAML scalar, `list_skills` raises
`AttributeError` instead of returning the successfully parsed records
(here none) with the failing entry discarded. -/
theorem list_skills_exception_counterexample :
    list_skills yamlFix (some [badEntry]) = .error PyExc.attributeError ∧
    successRecords yamlFix [badEntry] = [] ∧
    list_skills yamlFix (some [badEntry]) ≠ .ok [] := by
  refine ⟨rfl, rfl, ?_⟩
  intro hcontra
  rw [show list_skills yamlFix (some [badEntry]) = .error PyExc.attributeError from rfl]
    at hcontra
  exact Except.noConfusion hcontra

/-- The spec's three-subdirectory example: two valid descriptors (listed
out of name order) and one invalid (missing description). -/
def demoEntries : List DirEntry :=
  [⟨"bdir", true, some contentBeta⟩, ⟨"gdir", true, some contentGamma⟩,
   ⟨"adir", true, some contentAlpha⟩]

def skillAlpha : Skill :=
  ⟨"alpha", PyValue.str "a", "Alpha body.", PyValue.none, PyValue.none, PyValue.none,
    PyValue.none⟩

def skillBeta : Skill :=
  ⟨"beta", PyValue.str "b", "Beta body.", PyValue.none, PyValue.none, PyValue.none,
    PyValue.none⟩

/-- C6 (amended): `list_skills` returns an empty sequence when the
directory does not exist; and provided no descriptor raises, it returns
exactly the records of the non-hidden immediate subdirectories whose
descriptors parse, with failures discarded, sorted by name; the spec's
three-subdirectory example yields exactly the two valid records in name
order. -/
theorem list_skills_enumeration :
    (∀ y : String → Except Unit PyValue, list_skills y Option.none = .ok []) ∧
    (∀ (y : String → Except Unit PyValue) (entries : List DirEntry),
      (∀ e ∈ entries, ∃ r, entryParse y e = .ok r) →
      ∃ out, list_skills y (some entries) = .ok out ∧
        out.Perm (successRecords y entries) ∧ List.Sorted skillLe out) ∧
    list_skills yamlFix (some demoEntries) = .ok [skillAlpha, skillBeta] := by
  refine ⟨fun y => rfl, ?_, rfl⟩
  intro y entries h
  refine ⟨List.insertionSort skillLe (successRecords y entries), ?_, ?_, ?_⟩
  · show (collectSkills y entries).map (List.insertionSort skillLe) =
      .ok (List.insertionSort skillLe (successRecords y entries))
    rw [collectSkills_ok y entries h]
    rfl
  · exact List.perm_insertionSort _ _
  · exact List.sorted_insertionSort _ _

theorem list_skills_enumeration_witness :
    ∃ out, list_skills yamlFix (some demoEntries) = .ok out ∧
      out.Perm (successRecords yamlFix demoEntries) ∧ List.Sorted skillLe out :=
  list_skills_enumeration.2.1 yamlFix demoEntries (by
    intro e he
    fin_cases he
    · exact ⟨some skillBeta, rfl⟩
    · exact ⟨Option.none, rfl⟩
    · exact ⟨some skillAlpha, rfl⟩)

end Chibi
